import Mathlib

/-!
Shallow embedding of the jobq job-queue engine (src/src/example.ts, library part).

The store is modelled as a list of job rows; SQLite's `unixepoch('now')` is an
explicit `now : Int` parameter threaded through every operation.  Each SQL
statement of the source is translated into a pure function on the store:
`getNextJob` (the atomic claim, lines 68-100), `failJob` (lines 102-141),
`completeJob` (lines 143-164) and `enqueueJob` (lines 166-194).  The booleans
the source derives from `this.changes === 1` are computed from the number of
rows matched by the corresponding WHERE clause, and `INTEGER PRIMARY KEY`
rowid assignment is modelled as largest-existing-id-plus-one.
-/

namespace JobQ

/-- Status codes, as in the `StatusType` constant of the source. -/
def PENDING : Int := 1

/-- Status code `StatusType.IN_PROGRESS`. -/
def IN_PROGRESS : Int := 2

/-- Status code `StatusType.COMPLETE`. -/
def COMPLETE : Int := 3

/-- Status code `StatusType.FAILED`. -/
def FAILED : Int := 4

/-- A row of the `jobs` table (interface `Job` of the source). -/
structure Job where
  id : Int
  status : Int
  description : String
  max_attempts : Int
  attempts_remaining : Int
  time_limit_seconds : Int
  deadline : Int
  error : Option String
deriving DecidableEq, Repr

/-- Parameters of an insert (interface `JobParams` of the source). -/
structure JobParams where
  description : String
  time_limit_seconds : Int
  max_attempts : Int
deriving DecidableEq, Repr

/-- The `jobs` table. -/
abbrev Store := List Job

/-- Fetch the row with a given id (first match, as `db.get` would). -/
def getRow (i : Int) (s : Store) : Option Job :=
  s.find? (fun j => j.id == i)

/-- The eligibility predicate of `getNextJob`'s inner SELECT:
`(status = PENDING AND attempts_remaining > 0) OR
 (status = IN_PROGRESS AND deadline < unixepoch('now') AND attempts_remaining > 0)`. -/
def eligible (now : Int) (j : Job) : Bool :=
  (j.status == PENDING && decide (0 < j.attempts_remaining))
  || (j.status == IN_PROGRESS && decide (j.deadline < now)
      && decide (0 < j.attempts_remaining))

/-- Comparator realising `ORDER BY deadline DESC LIMIT 1`: keep the row whose
deadline is larger (the earlier row on ties, which SQLite leaves unspecified). -/
def betterDeadline (a b : Job) : Job :=
  if a.deadline < b.deadline then b else a

/-- The inner `SELECT id FROM jobs WHERE (eligible) ORDER BY deadline DESC LIMIT 1`
of `getNextJob`, returning the selected row itself. -/
def selectNext (now : Int) (s : Store) : Option Job :=
  match s.filter (eligible now) with
  | [] => none
  | j :: js => some (js.foldl betterDeadline j)

/-- The SET clause of `getNextJob`: `status = 2`,
`deadline = unixepoch('now', printf('+%d second', time_limit_seconds))`,
`attempts_remaining = attempts_remaining - 1`. -/
def claimUpdate (now : Int) (j : Job) : Job :=
  { j with status := IN_PROGRESS,
           deadline := now + j.time_limit_seconds,
           attempts_remaining := j.attempts_remaining - 1 }

/-- Function `getNextJob` (source lines 68-100): atomically claim one eligible job,
returning the post-mutation row (RETURNING *) and the updated table. -/
def getNextJob (now : Int) (s : Store) : Option Job × Store :=
  match selectNext now s with
  | none => (none, s)
  | some j0 =>
      (some (claimUpdate now j0),
       s.map (fun j => if j.id == j0.id then claimUpdate now j else j))

/-- Function `failJob` (source lines 102-141).  The branch is taken on the CALLER's
captured `job.attempts_remaining`.  If it is `<= 0`: set status FAILED and the
error, guarded by `id = ? AND attempts_remaining = ?`.  Otherwise: set status
PENDING and reset the deadline, guarded by `id = ?` only.  The returned Bool
is `this.changes === 1`. -/
def failJob (now : Int) (s : Store) (job : Job) (reason : String) : Bool × Store :=
  if job.attempts_remaining ≤ 0 then
    (s.countP (fun j : Job =>
        j.id == job.id && j.attempts_remaining == job.attempts_remaining) == 1,
     s.map (fun j => if j.id == job.id && j.attempts_remaining == job.attempts_remaining
        then { j with status := FAILED, error := some reason } else j))
  else
    (s.countP (fun j : Job => j.id == job.id) == 1,
     s.map (fun j => if j.id == job.id then
        { j with status := PENDING, deadline := now + j.time_limit_seconds } else j))

/-- Function `completeJob` (source lines 143-164): set status COMPLETE guarded by
`id = ? AND attempts_remaining = ?`; return `this.changes === 1`. -/
def completeJob (s : Store) (job : Job) : Bool × Store :=
  (s.countP (fun j : Job =>
      j.id == job.id && j.attempts_remaining == job.attempts_remaining) == 1,
   s.map (fun j => if j.id == job.id && j.attempts_remaining == job.attempts_remaining
      then { j with status := COMPLETE } else j))

/-- Rowid assignment of `INTEGER PRIMARY KEY`: one more than the largest id. -/
def freshId (s : Store) : Int :=
  (s.map Job.id).foldl max 0 + 1

/-- Function `enqueueJob` (source lines 166-194): insert a new PENDING row with
`attempts_remaining = max_attempts` and `deadline = unixepoch('now', '+N second')`. -/
def enqueueJob (now : Int) (s : Store) (p : JobParams) : Store :=
  s ++ [{ id := freshId s,
          status := PENDING,
          description := p.description,
          max_attempts := p.max_attempts,
          attempts_remaining := p.max_attempts,
          time_limit_seconds := p.time_limit_seconds,
          deadline := now + p.time_limit_seconds,
          error := none }]

end JobQ

namespace JobQ

/-! ### Helper lemmas about rows, ids and the selection fold -/

theorem getRow_mem {i : Int} {s : Store} {r : Job} (h : getRow i s = some r) :
    r ∈ s ∧ r.id = i := by
  refine ⟨List.mem_of_find?_eq_some h, ?_⟩
  have := List.find?_some h
  simpa using this

theorem id_inj {s : Store} (hn : (s.map Job.id).Nodup) {a b : Job}
    (ha : a ∈ s) (hb : b ∈ s) (hid : a.id = b.id) : a = b :=
  List.inj_on_of_nodup_map hn ha hb hid

theorem getRow_of_mem {s : Store} (hn : (s.map Job.id).Nodup) {r : Job}
    (hr : r ∈ s) : getRow r.id s = some r := by
  cases h : getRow r.id s with
  | none =>
      have hne := List.find?_eq_none.mp h r hr
      simp at hne
  | some r2 =>
      obtain ⟨hm, hid⟩ := getRow_mem h
      exact congrArg some (id_inj hn hm hr hid)

theorem getRow_map_idpres (h : Job → Job) (hid : ∀ j, (h j).id = j.id)
    (i : Int) (s : Store) : getRow i (s.map h) = (getRow i s).map h := by
  induction s with
  | nil => rfl
  | cons a t ih =>
      simp only [getRow, List.map_cons, List.find?] at *
      rw [hid a]
      cases ha : (a.id == i) <;> simp [ha, ih]

theorem map_ids_of_idpres (h : Job → Job) (hid : ∀ j, (h j).id = j.id)
    (s : Store) : (s.map h).map Job.id = s.map Job.id := by
  rw [List.map_map]
  exact List.map_congr_left (fun a _ => hid a)

/-- At most one row satisfies an id-guarded predicate when ids are unique:
exactly one when the row with that id satisfies the rest of the guard. -/
theorem countP_id_eq_one {s : Store} (hn : (s.map Job.id).Nodup) {i : Int}
    (q : Job → Bool) {r : Job} (hr : r ∈ s) (hrid : r.id = i) (hq : q r = true) :
    s.countP (fun x => (x.id == i) && q x) = 1 := by
  induction s with
  | nil => cases hr
  | cons a t ih =>
      rw [List.map_cons] at hn
      obtain ⟨hna, hn'⟩ := List.nodup_cons.mp hn
      rw [List.countP_cons]
      rcases List.mem_cons.mp hr with rfl | hrt
      · have ht : t.countP (fun x => (x.id == i) && q x) = 0 := by
          refine List.countP_eq_zero.mpr (fun x hx hpx => ?_)
          have hxid : x.id = i := by
            have := (Bool.and_eq_true _ _).mp hpx
            simpa using this.1
          exact hna (by simpa [hrid, ← hxid] using List.mem_map_of_mem Job.id hx)
        simp [ht, hrid, hq]
      · have hai : a.id ≠ i := by
          intro hai
          exact hna (by simpa [hai, ← hrid] using List.mem_map_of_mem Job.id hrt)
        simp [ih hn' hrt, hai]

theorem countP_id_eq_zero {s : Store} {i : Int} (q : Job → Bool)
    (hz : ∀ x ∈ s, x.id = i → q x = false) :
    s.countP (fun x => (x.id == i) && q x) = 0 := by
  refine List.countP_eq_zero.mpr (fun x hx hpx => ?_)
  have h1 := (Bool.and_eq_true _ _).mp hpx
  have hxid : x.id = i := by simpa using h1.1
  rw [hz x hx hxid] at h1
  exact Bool.false_ne_true h1.2

theorem betterDeadline_or (a b : Job) :
    betterDeadline a b = a ∨ betterDeadline a b = b := by
  unfold betterDeadline
  by_cases h : a.deadline < b.deadline <;> simp [h]

theorem le_betterDeadline_left (a b : Job) :
    a.deadline ≤ (betterDeadline a b).deadline := by
  unfold betterDeadline
  split <;> omega

theorem le_betterDeadline_right (a b : Job) :
    b.deadline ≤ (betterDeadline a b).deadline := by
  unfold betterDeadline
  split <;> omega

theorem foldl_better_or (js : List Job) (j : Job) :
    js.foldl betterDeadline j = j ∨ js.foldl betterDeadline j ∈ js := by
  induction js generalizing j with
  | nil => left; rfl
  | cons b t ih =>
      rw [List.foldl_cons]
      rcases ih (betterDeadline j b) with h | h
      · rcases betterDeadline_or j b with h2 | h2
        · left; rw [h, h2]
        · right; rw [h, h2]; exact List.mem_cons_self b t
      · right; exact List.mem_cons_of_mem b h

theorem le_foldl_better_init (js : List Job) (j : Job) :
    j.deadline ≤ (js.foldl betterDeadline j).deadline := by
  induction js generalizing j with
  | nil => exact le_refl _
  | cons b t ih =>
      rw [List.foldl_cons]
      exact le_trans (le_betterDeadline_left j b) (ih (betterDeadline j b))

theorem le_foldl_better_mem (js : List Job) (j : Job) {x : Job} (hx : x ∈ js) :
    x.deadline ≤ (js.foldl betterDeadline j).deadline := by
  induction js generalizing j with
  | nil => cases hx
  | cons b t ih =>
      rw [List.foldl_cons]
      rcases List.mem_cons.mp hx with rfl | hxt
      · exact le_trans (le_betterDeadline_right j x) (le_foldl_better_init t _)
      · exact ih (betterDeadline j b) hxt

end JobQ

namespace JobQ

theorem selectNext_some {now : Int} {s : Store} {j0 : Job}
    (h : selectNext now s = some j0) :
    j0 ∈ s ∧ eligible now j0 = true
      ∧ ∀ x ∈ s, eligible now x = true → x.deadline ≤ j0.deadline := by
  unfold selectNext at h
  cases hf : s.filter (eligible now) with
  | nil => rw [hf] at h; cases h
  | cons a t =>
      rw [hf] at h
      have hj0 : j0 = t.foldl betterDeadline a := by
        cases h; rfl
      have hmem : j0 ∈ s.filter (eligible now) := by
        rw [hf]
        rcases foldl_better_or t a with h2 | h2
        · rw [hj0, h2]; exact List.mem_cons_self a t
        · rw [hj0]; exact List.mem_cons_of_mem a h2
      refine ⟨(List.mem_filter.mp hmem).1, (List.mem_filter.mp hmem).2, ?_⟩
      intro x hx hex
      have hxf : x ∈ s.filter (eligible now) := List.mem_filter.mpr ⟨hx, hex⟩
      rw [hf] at hxf
      rw [hj0]
      rcases List.mem_cons.mp hxf with rfl | hxt
      · exact le_foldl_better_init t x
      · exact le_foldl_better_mem t a hxt

theorem selectNext_none {now : Int} {s : Store}
    (h : selectNext now s = none) : ∀ x ∈ s, eligible now x = false := by
  unfold selectNext at h
  cases hf : s.filter (eligible now) with
  | nil =>
      intro x hx
      by_contra hne
      have hex : eligible now x = true := by
        cases he : eligible now x
        · exact absurd he hne
        · rfl
      have : x ∈ s.filter (eligible now) := List.mem_filter.mpr ⟨hx, hex⟩
      rw [hf] at this
      cases this
  | cons a t => rw [hf] at h; cases h

theorem selectNext_isSome {now : Int} {s : Store} {j : Job}
    (hj : j ∈ s) (he : eligible now j = true) : (selectNext now s).isSome := by
  cases h : selectNext now s with
  | none => rw [selectNext_none h j hj] at he; cases he
  | some j0 => rfl

theorem le_foldl_max_init (l : List Int) (a : Int) : a ≤ l.foldl max a := by
  induction l generalizing a with
  | nil => exact le_refl a
  | cons b t ih =>
      rw [List.foldl_cons]
      exact le_trans (le_max_left a b) (ih (max a b))

theorem le_foldl_max_mem (l : List Int) (a : Int) {x : Int} (hx : x ∈ l) :
    x ≤ l.foldl max a := by
  induction l generalizing a with
  | nil => cases hx
  | cons b t ih =>
      rw [List.foldl_cons]
      rcases List.mem_cons.mp hx with rfl | hxt
      · exact le_trans (le_max_right a x) (le_foldl_max_init t _)
      · exact ih (max a b) hxt

theorem freshId_not_id {s : Store} {j : Job} (hj : j ∈ s) : j.id ≠ freshId s := by
  have : j.id ≤ (s.map Job.id).foldl max 0 :=
    le_foldl_max_mem _ 0 (List.mem_map_of_mem Job.id hj)
  unfold freshId
  omega

theorem getRow_freshId_none (s : Store) : getRow (freshId s) s = none := by
  refine List.find?_eq_none.mpr (fun x hx hpx => ?_)
  exact freshId_not_id hx (by simpa using hpx)

theorem nodup_enqueue {now : Int} {s : Store} {p : JobParams}
    (hn : (s.map Job.id).Nodup) :
    ((enqueueJob now s p).map Job.id).Nodup := by
  unfold enqueueJob
  rw [List.map_append]
  simp only [List.map_cons, List.map_nil]
  rw [List.nodup_append]
  refine ⟨hn, List.nodup_singleton _, ?_⟩
  intro x hx hy
  simp only [List.mem_singleton] at hy
  subst hy
  obtain ⟨j, hj, hjid⟩ := List.mem_map.mp hx
  exact freshId_not_id hj hjid

end JobQ

namespace JobQ

/-! ### Characterisation of the conditional updates -/

/-- A guarded row update hits exactly the one row the guard singles out. -/
theorem map_guard_eq_replace (s : Store) {r : Job} (p : Job → Bool) (u : Job → Job)
    (hp : ∀ x ∈ s, p x = true → x = r) (hpr : p r = true) :
    s.map (fun j => if p j then u j else j)
      = s.map (fun j => if j = r then u r else j) := by
  refine List.map_congr_left (fun x hx => ?_)
  by_cases hpx : p x = true
  · have hxr := hp x hx hpx
    subst hxr
    simp [hpx]
  · have hxr : x ≠ r := fun he => hpx (he ▸ hpr)
    simp [hpx, hxr]

/-- A guarded row update that matches no row is the identity. -/
theorem map_guard_eq_self (s : Store) (p : Job → Bool) (u : Job → Job)
    (hp : ∀ x ∈ s, p x = false) :
    s.map (fun j => if p j then u j else j) = s := by
  have h2 : s.map (fun j => if p j then u j else j) = s.map id :=
    List.map_congr_left (fun x hx => by simp [hp x hx])
  rw [h2, List.map_id]

theorem completeJob_match {s : Store} {job r : Job}
    (hn : (s.map Job.id).Nodup) (hr : getRow job.id s = some r)
    (heq : r.attempts_remaining = job.attempts_remaining) :
    completeJob s job =
      (true, s.map (fun j => if j = r then { r with status := COMPLETE } else j)) := by
  obtain ⟨hm, hid⟩ := getRow_mem hr
  have hcount : s.countP (fun j : Job =>
      j.id == job.id && j.attempts_remaining == job.attempts_remaining) = 1 :=
    countP_id_eq_one hn (fun x => x.attempts_remaining == job.attempts_remaining)
      hm hid (by simp [heq])
  have hmap : (s.map (fun j =>
        if j.id == job.id && j.attempts_remaining == job.attempts_remaining
        then { j with status := COMPLETE } else j))
      = s.map (fun j => if j = r then { r with status := COMPLETE } else j) :=
    map_guard_eq_replace s
      (fun x : Job => x.id == job.id && (x.attempts_remaining == job.attempts_remaining))
      (fun j => { j with status := COMPLETE })
      (fun x hx hpx => id_inj hn hx hm (by
        have h2 := (Bool.and_eq_true _ _).mp hpx
        have h1 : x.id = job.id := by simpa using h2.1
        rw [h1, hid]))
      (by simp [hid, heq])
  unfold completeJob
  rw [hmap, hcount]
  rfl

theorem completeJob_mismatch {s : Store} {job r : Job}
    (hn : (s.map Job.id).Nodup) (hr : getRow job.id s = some r)
    (hne : r.attempts_remaining ≠ job.attempts_remaining) :
    completeJob s job = (false, s) := by
  obtain ⟨hm, hid⟩ := getRow_mem hr
  have hz : ∀ x ∈ s, x.id = job.id →
      (x.attempts_remaining == job.attempts_remaining) = false := by
    intro x hx hxid
    have hxr : x = r := id_inj hn hx hm (hxid.trans hid.symm)
    subst hxr
    simpa using hne
  have hcount : s.countP (fun j : Job =>
      j.id == job.id && j.attempts_remaining == job.attempts_remaining) = 0 :=
    countP_id_eq_zero (fun x : Job => x.attempts_remaining == job.attempts_remaining) hz
  have hmap : (s.map (fun j =>
        if j.id == job.id && j.attempts_remaining == job.attempts_remaining
        then { j with status := COMPLETE } else j)) = s :=
    map_guard_eq_self s
      (fun x : Job => x.id == job.id && (x.attempts_remaining == job.attempts_remaining))
      (fun j => { j with status := COMPLETE })
      (fun x hx => by
        by_cases hxid : x.id = job.id
        · simp [hxid, hz x hx hxid]
        · simp [hxid])
  unfold completeJob
  rw [hmap, hcount]
  rfl

theorem failJob_terminal_match {now : Int} {s : Store} {job r : Job} {reason : String}
    (hn : (s.map Job.id).Nodup) (hr : getRow job.id s = some r)
    (hle : job.attempts_remaining ≤ 0)
    (heq : r.attempts_remaining = job.attempts_remaining) :
    failJob now s job reason =
      (true, s.map (fun j =>
        if j = r then { r with status := FAILED, error := some reason } else j)) := by
  obtain ⟨hm, hid⟩ := getRow_mem hr
  have hcount : s.countP (fun j : Job =>
      j.id == job.id && j.attempts_remaining == job.attempts_remaining) = 1 :=
    countP_id_eq_one hn (fun x => x.attempts_remaining == job.attempts_remaining)
      hm hid (by simp [heq])
  have hmap : (s.map (fun j =>
        if j.id == job.id && j.attempts_remaining == job.attempts_remaining
        then { j with status := FAILED, error := some reason } else j))
      = s.map (fun j => if j = r then { r with status := FAILED, error := some reason } else j) :=
    map_guard_eq_replace s
      (fun x : Job => x.id == job.id && (x.attempts_remaining == job.attempts_remaining))
      (fun j => { j with status := FAILED, error := some reason })
      (fun x hx hpx => id_inj hn hx hm (by
        have h2 := (Bool.and_eq_true _ _).mp hpx
        have h1 : x.id = job.id := by simpa using h2.1
        rw [h1, hid]))
      (by simp [hid, heq])
  unfold failJob
  rw [if_pos hle, hmap, hcount]
  rfl

theorem failJob_terminal_mismatch {now : Int} {s : Store} {job r : Job} {reason : String}
    (hn : (s.map Job.id).Nodup) (hr : getRow job.id s = some r)
    (hle : job.attempts_remaining ≤ 0)
    (hne : r.attempts_remaining ≠ job.attempts_remaining) :
    failJob now s job reason = (false, s) := by
  obtain ⟨hm, hid⟩ := getRow_mem hr
  have hz : ∀ x ∈ s, x.id = job.id →
      (x.attempts_remaining == job.attempts_remaining) = false := by
    intro x hx hxid
    have hxr : x = r := id_inj hn hx hm (hxid.trans hid.symm)
    subst hxr
    simpa using hne
  have hcount : s.countP (fun j : Job =>
      j.id == job.id && j.attempts_remaining == job.attempts_remaining) = 0 :=
    countP_id_eq_zero (fun x : Job => x.attempts_remaining == job.attempts_remaining) hz
  have hmap : (s.map (fun j =>
        if j.id == job.id && j.attempts_remaining == job.attempts_remaining
        then { j with status := FAILED, error := some reason } else j)) = s :=
    map_guard_eq_self s
      (fun x : Job => x.id == job.id && (x.attempts_remaining == job.attempts_remaining))
      (fun j => { j with status := FAILED, error := some reason })
      (fun x hx => by
        by_cases hxid : x.id = job.id
        · simp [hxid, hz x hx hxid]
        · simp [hxid])
  unfold failJob
  rw [if_pos hle, hmap, hcount]
  rfl

theorem failJob_requeue {now : Int} {s : Store} {job r : Job} {reason : String}
    (hn : (s.map Job.id).Nodup) (hr : getRow job.id s = some r)
    (hpos : 0 < job.attempts_remaining) :
    failJob now s job reason =
      (true, s.map (fun j =>
        if j = r then { r with status := PENDING,
                               deadline := now + r.time_limit_seconds } else j)) := by
  obtain ⟨hm, hid⟩ := getRow_mem hr
  have hcount : s.countP (fun j : Job => j.id == job.id) = 1 := by
    have h2 := countP_id_eq_one hn (fun _ : Job => true) hm hid rfl
    rw [← h2]
    exact List.countP_congr (fun x _ => by simp)
  have hmap : (s.map (fun j => if j.id == job.id then
        { j with status := PENDING, deadline := now + j.time_limit_seconds } else j))
      = s.map (fun j => if j = r then
        { r with status := PENDING, deadline := now + r.time_limit_seconds } else j) :=
    map_guard_eq_replace s
      (fun x : Job => x.id == job.id)
      (fun j => { j with status := PENDING, deadline := now + j.time_limit_seconds })
      (fun x hx hpx => id_inj hn hx hm (by
        have h1 : x.id = job.id := by simpa using hpx
        rw [h1, hid]))
      (by simp [hid])
  unfold failJob
  rw [if_neg (by omega), hmap, hcount]
  rfl

end JobQ

namespace JobQ

/-! ### Rows that an operation leaves untouched -/

theorem claimUpdate_id (now : Int) (j : Job) : (claimUpdate now j).id = j.id := rfl

theorem idpres_guard (p : Job → Bool) (u : Job → Job) (hu : ∀ j, (u j).id = j.id) :
    ∀ j, (if p j then u j else j).id = j.id := by
  intro j
  by_cases h : p j = true <;> simp [h, hu j]

theorem eligible_terminal_false {now : Int} {r : Job}
    (h : r.status = COMPLETE ∨ r.status = FAILED) : eligible now r = false := by
  unfold eligible
  rcases h with h | h <;> rw [h] <;> rfl

theorem eligible_nonpos_false {now : Int} {r : Job}
    (h : r.attempts_remaining ≤ 0) : eligible now r = false := by
  have hd : decide (0 < r.attempts_remaining) = false := decide_eq_false (by omega)
  unfold eligible
  rw [hd]
  simp

/-- A claim can neither return nor modify a row that is not eligible. -/
theorem getNextJob_skips {now : Int} {s : Store} {r : Job}
    (hn : (s.map Job.id).Nodup) (hr : r ∈ s) (hel : eligible now r = false) :
    getRow r.id (getNextJob now s).2 = some r
    ∧ ∀ j, (getNextJob now s).1 = some j → j.id ≠ r.id := by
  unfold getNextJob
  cases h : selectNext now s with
  | none =>
      refine ⟨getRow_of_mem hn hr, ?_⟩
      intro j hj
      cases hj
  | some j0 =>
      obtain ⟨hm0, he0, _⟩ := selectNext_some h
      have hne : j0.id ≠ r.id := by
        intro he
        rw [id_inj hn hm0 hr he, hel] at he0
        cases he0
      refine ⟨?_, ?_⟩
      · rw [getRow_map_idpres _ (idpres_guard _ _ (claimUpdate_id now)) r.id s,
            getRow_of_mem hn hr]
        have hb : r.id ≠ j0.id := fun h2 => hne h2.symm
        simp [Option.map, beq_iff_eq, hb]
      · intro j hj
        have : claimUpdate now j0 = j := by
          simpa using hj
        rw [← this]
        exact hne

theorem completeJob_snd (s : Store) (job : Job) :
    (completeJob s job).2 = s.map (fun j =>
      if j.id == job.id && j.attempts_remaining == job.attempts_remaining
      then { j with status := COMPLETE } else j) := rfl

theorem failJob_snd_terminal {now : Int} {s : Store} {job : Job} {reason : String}
    (hle : job.attempts_remaining ≤ 0) :
    (failJob now s job reason).2 = s.map (fun j =>
      if j.id == job.id && j.attempts_remaining == job.attempts_remaining
      then { j with status := FAILED, error := some reason } else j) := by
  unfold failJob
  rw [if_pos hle]

theorem failJob_snd_requeue {now : Int} {s : Store} {job : Job} {reason : String}
    (hpos : 0 < job.attempts_remaining) :
    (failJob now s job reason).2 = s.map (fun j =>
      if j.id == job.id
      then { j with status := PENDING, deadline := now + j.time_limit_seconds } else j) := by
  unfold failJob
  rw [if_neg (by omega)]

/-- A completion whose id or version token does not match row `r` leaves `r` as it is. -/
theorem completeJob_skips {s : Store} {r : Job}
    (hn : (s.map Job.id).Nodup) (hr : r ∈ s) {job : Job}
    (hcond : job.id ≠ r.id ∨ job.attempts_remaining ≠ r.attempts_remaining) :
    getRow r.id (completeJob s job).2 = some r := by
  rw [completeJob_snd,
      getRow_map_idpres _
        (idpres_guard _ (fun j => { j with status := COMPLETE }) (fun j => rfl)) r.id s,
      getRow_of_mem hn hr]
  rcases hcond with hc | hc
  · have hb : r.id ≠ job.id := fun h2 => hc h2.symm
    simp [Option.map, beq_iff_eq, hb]
  · have hb : r.attempts_remaining ≠ job.attempts_remaining := fun h2 => hc h2.symm
    simp [Option.map, beq_iff_eq, hb]

/-- A terminal-branch failJob whose id or token does not match `r` leaves `r` as it is. -/
theorem failJob_skips_terminal {now : Int} {s : Store} {r : Job}
    (hn : (s.map Job.id).Nodup) (hr : r ∈ s) {job : Job} {reason : String}
    (hle : job.attempts_remaining ≤ 0)
    (hcond : job.id ≠ r.id ∨ job.attempts_remaining ≠ r.attempts_remaining) :
    getRow r.id (failJob now s job reason).2 = some r := by
  rw [failJob_snd_terminal hle,
      getRow_map_idpres _
        (idpres_guard _ (fun j => { j with status := FAILED, error := some reason })
          (fun j => rfl)) r.id s,
      getRow_of_mem hn hr]
  rcases hcond with hc | hc
  · have hb : r.id ≠ job.id := fun h2 => hc h2.symm
    simp [Option.map, beq_iff_eq, hb]
  · have hb : r.attempts_remaining ≠ job.attempts_remaining := fun h2 => hc h2.symm
    simp [Option.map, beq_iff_eq, hb]

/-- A requeue-branch failJob aimed at a different id leaves `r` as it is. -/
theorem failJob_skips_requeue {now : Int} {s : Store} {r : Job}
    (hn : (s.map Job.id).Nodup) (hr : r ∈ s) {job : Job} {reason : String}
    (hpos : 0 < job.attempts_remaining) (hid : job.id ≠ r.id) :
    getRow r.id (failJob now s job reason).2 = some r := by
  rw [failJob_snd_requeue hpos,
      getRow_map_idpres _
        (idpres_guard _
          (fun j => { j with status := PENDING, deadline := now + j.time_limit_seconds })
          (fun j => rfl)) r.id s,
      getRow_of_mem hn hr]
  have hb : r.id ≠ job.id := fun h2 => hid h2.symm
  simp [Option.map, beq_iff_eq, hb]

/-- Inserting a fresh row does not change the row found for an existing id. -/
theorem enqueue_keeps {now : Int} {s : Store} {p : JobParams} {i : Int} {r : Job}
    (hr : getRow i s = some r) : getRow i (enqueueJob now s p) = some r := by
  unfold enqueueJob getRow
  rw [List.find?_append]
  unfold getRow at hr
  rw [hr]
  rfl

end JobQ

namespace JobQ

/-- Replacing exactly the row `r` (by value) yields the replacement at `r.id`. -/
theorem getRow_replace {s : Store} {r : Job} (hn : (s.map Job.id).Nodup)
    (hr : r ∈ s) (X : Job) (hX : X.id = r.id) :
    getRow r.id (s.map (fun j => if j = r then X else j)) = some X := by
  have hid : ∀ j : Job, (if j = r then X else j).id = j.id := by
    intro j
    by_cases hj : j = r
    · simp [hj, hX]
    · simp [hj]
  rw [getRow_map_idpres _ hid r.id s, getRow_of_mem hn hr]
  simp

end JobQ

namespace JobQ

/-! ### Claim theorems -/

/-- C4: a claim selects a job iff some job is eligible
(`(PENDING ∧ attempts_remaining > 0) ∨ (IN_PROGRESS ∧ deadline < now ∧ attempts_remaining > 0)`);
on success the selected row — in one store operation — gets status IN_PROGRESS,
deadline now + time_limit_seconds, attempts_remaining decremented by one, all
other fields unchanged, and the post-mutation row is returned; otherwise the
claim returns none and the store is unchanged. -/
theorem getNextJob_correct (now : Int) (s : Store) (hn : (s.map Job.id).Nodup) :
    ((getNextJob now s).1 = none → (getNextJob now s).2 = s ∧ ∀ j ∈ s, eligible now j = false)
  ∧ (∀ j ∈ s, eligible now j = true → ((getNextJob now s).1).isSome = true)
  ∧ ∀ jr, (getNextJob now s).1 = some jr →
      ∃ j0, j0 ∈ s ∧ eligible now j0 = true
        ∧ jr.id = j0.id ∧ jr.status = IN_PROGRESS
        ∧ jr.deadline = now + j0.time_limit_seconds
        ∧ jr.attempts_remaining = j0.attempts_remaining - 1
        ∧ jr.description = j0.description ∧ jr.max_attempts = j0.max_attempts
        ∧ jr.time_limit_seconds = j0.time_limit_seconds ∧ jr.error = j0.error
        ∧ (getNextJob now s).2 = s.map (fun j => if j = j0 then jr else j) := by
  unfold getNextJob
  cases h : selectNext now s with
  | none =>
      refine ⟨fun _ => ⟨rfl, selectNext_none h⟩, ?_, ?_⟩
      · intro j hj he
        have hs := selectNext_isSome hj he
        rw [h] at hs
        simp at hs
      · intro jr hjr
        cases hjr
  | some j0 =>
      obtain ⟨hm0, he0, _⟩ := selectNext_some h
      refine ⟨?_, fun _ _ _ => rfl, ?_⟩
      · intro hcon
        cases hcon
      intro jr hjr
      have hjr2 : jr = claimUpdate now j0 := by simpa using hjr.symm
      subst hjr2
      refine ⟨j0, hm0, he0, rfl, rfl, rfl, rfl, rfl, rfl, rfl, rfl, ?_⟩
      exact map_guard_eq_replace s (fun j : Job => j.id == j0.id) (claimUpdate now)
        (fun x hx hpx => id_inj hn hx hm0 (by simpa using hpx))
        (by simp)

/-- C7: whenever at least two distinct eligible jobs exist, the claim picks an
eligible job whose deadline is greatest among all eligible jobs
(`ORDER BY deadline DESC LIMIT 1`). -/
theorem claim_latest_deadline (now : Int) (s : Store) (j1 j2 : Job)
    (h1 : j1 ∈ s) (_h2 : j2 ∈ s) (_hne : j1 ≠ j2)
    (he1 : eligible now j1 = true) (_he2 : eligible now j2 = true) :
    ∃ j0, j0 ∈ s ∧ eligible now j0 = true
      ∧ (getNextJob now s).1 = some (claimUpdate now j0)
      ∧ ∀ x ∈ s, eligible now x = true → x.deadline ≤ j0.deadline := by
  cases h : selectNext now s with
  | none =>
      rw [selectNext_none h j1 h1] at he1
      cases he1
  | some j0 =>
      obtain ⟨hm0, he0, hmax⟩ := selectNext_some h
      refine ⟨j0, hm0, he0, ?_, hmax⟩
      unfold getNextJob
      rw [h]

/-- C5: completion of the job with row `r` succeeds — setting status COMPLETE
and returning true — exactly when the version token captured at claim time
still equals the row's `attempts_remaining`; on a token mismatch it returns
false and the store is untouched.  No deadline condition appears in either
direction. -/
theorem completeJob_correct (s : Store) (job r : Job)
    (hn : (s.map Job.id).Nodup) (hr : getRow job.id s = some r) :
    (r.attempts_remaining = job.attempts_remaining →
        completeJob s job =
          (true, s.map (fun j => if j = r then { r with status := COMPLETE } else j)))
  ∧ (r.attempts_remaining ≠ job.attempts_remaining → completeJob s job = (false, s)) :=
  ⟨fun heq => completeJob_match hn hr heq,
   fun hne => completeJob_mismatch hn hr hne⟩

/-- C3: failing a job whose captured `attempts_remaining` is ≤ 0 conditionally
sets status FAILED and `error = reason`, guarded by id AND matching
attempts_remaining (returning whether exactly one row changed); with a
positive captured value it sets the row back to PENDING with
`deadline = now + time_limit_seconds`, guarded by id only. -/
theorem failJob_correct (now : Int) (s : Store) (job : Job) (reason : String) (r : Job)
    (hn : (s.map Job.id).Nodup) (hr : getRow job.id s = some r) :
    (job.attempts_remaining ≤ 0 → r.attempts_remaining = job.attempts_remaining →
        failJob now s job reason =
          (true, s.map (fun j =>
            if j = r then { r with status := FAILED, error := some reason } else j)))
  ∧ (job.attempts_remaining ≤ 0 → r.attempts_remaining ≠ job.attempts_remaining →
        failJob now s job reason = (false, s))
  ∧ (0 < job.attempts_remaining →
        failJob now s job reason =
          (true, s.map (fun j =>
            if j = r then { r with status := PENDING,
                                   deadline := now + r.time_limit_seconds } else j))) :=
  ⟨fun hle heq => failJob_terminal_match hn hr hle heq,
   fun hle hne => failJob_terminal_mismatch hn hr hle hne,
   fun hpos => failJob_requeue hn hr hpos⟩

/-- C1 counterexample: a failJob call whose captured version token (1) does not
match the row's current `attempts_remaining` (0) nevertheless returns true and
rewrites the row (status back to PENDING, deadline reset). -/
theorem failJob_stale_token_mutates_cex :
    failJob 20
        [{ id := 1, status := 2, description := "d", max_attempts := 3,
           attempts_remaining := 0, time_limit_seconds := 5, deadline := 10,
           error := none }]
        { id := 1, status := 2, description := "d", max_attempts := 3,
          attempts_remaining := 1, time_limit_seconds := 5, deadline := 8,
          error := none }
        "r"
      = (true,
         [{ id := 1, status := PENDING, description := "d", max_attempts := 3,
            attempts_remaining := 0, time_limit_seconds := 5, deadline := 25,
            error := none }])
    ∧ (failJob 20
        [{ id := 1, status := 2, description := "d", max_attempts := 3,
           attempts_remaining := 0, time_limit_seconds := 5, deadline := 10,
           error := none }]
        { id := 1, status := 2, description := "d", max_attempts := 3,
          attempts_remaining := 1, time_limit_seconds := 5, deadline := 8,
          error := none }
        "r").2
      ≠ [{ id := 1, status := 2, description := "d", max_attempts := 3,
           attempts_remaining := 0, time_limit_seconds := 5, deadline := 10,
           error := none }] := by
  constructor
  · rfl
  · decide

/-- C1 (amended): finalizing with a stale version token returns false and
leaves the store untouched for completeJob and for failJob when the captured
value is ≤ 0; failJob with a positive captured value ignores the token,
returns true, and resets the row to PENDING with a fresh deadline. -/
theorem stale_token_finalize (now : Int) (s : Store) (job : Job) (reason : String) (r : Job)
    (hn : (s.map Job.id).Nodup) (hr : getRow job.id s = some r)
    (hstale : r.attempts_remaining ≠ job.attempts_remaining) :
    completeJob s job = (false, s)
  ∧ (job.attempts_remaining ≤ 0 → failJob now s job reason = (false, s))
  ∧ (0 < job.attempts_remaining →
      (failJob now s job reason).1 = true
      ∧ getRow job.id (failJob now s job reason).2 =
          some { r with status := PENDING, deadline := now + r.time_limit_seconds }) := by
  obtain ⟨hm, hid⟩ := getRow_mem hr
  refine ⟨completeJob_mismatch hn hr hstale,
          fun hle => failJob_terminal_mismatch hn hr hle hstale,
          fun hpos => ?_⟩
  rw [failJob_requeue hn hr hpos]
  refine ⟨rfl, ?_⟩
  rw [← hid]
  exact getRow_replace hn hm _ rfl

/-- C2 counterexample: a protocol-reachable trace in which a FAILED (terminal)
job is pushed back to PENDING.  A two-attempt job is claimed twice (the second
claim after the first lease expired); the second holder fails it terminally
(status FAILED), then the first holder's failJob — whose captured token is 1,
taking the id-only requeue branch — rewrites the terminal row. -/
theorem terminal_job_mutated_cex :
    (getNextJob 10 (enqueueJob 0 []
        { description := "d", time_limit_seconds := 0, max_attempts := 2 })).1
      = some { id := 1, status := 2, description := "d", max_attempts := 2,
               attempts_remaining := 1, time_limit_seconds := 0, deadline := 10,
               error := none }
  ∧ (getNextJob 11 (getNextJob 10 (enqueueJob 0 []
        { description := "d", time_limit_seconds := 0, max_attempts := 2 })).2).1
      = some { id := 1, status := 2, description := "d", max_attempts := 2,
               attempts_remaining := 0, time_limit_seconds := 0, deadline := 11,
               error := none }
  ∧ (failJob 12 (getNextJob 11 (getNextJob 10 (enqueueJob 0 []
        { description := "d", time_limit_seconds := 0, max_attempts := 2 })).2).2
        { id := 1, status := 2, description := "d", max_attempts := 2,
          attempts_remaining := 0, time_limit_seconds := 0, deadline := 11,
          error := none }
        "boom").2
      = [{ id := 1, status := FAILED, description := "d", max_attempts := 2,
           attempts_remaining := 0, time_limit_seconds := 0, deadline := 11,
           error := some "boom" }]
  ∧ (failJob 13
        [{ id := 1, status := FAILED, description := "d", max_attempts := 2,
           attempts_remaining := 0, time_limit_seconds := 0, deadline := 11,
           error := some "boom" }]
        { id := 1, status := 2, description := "d", max_attempts := 2,
          attempts_remaining := 1, time_limit_seconds := 0, deadline := 10,
          error := none }
        "late").2
      = [{ id := 1, status := PENDING, description := "d", max_attempts := 2,
           attempts_remaining := 0, time_limit_seconds := 0, deadline := 13,
           error := some "boom" }]
  ∧ FAILED ≠ PENDING := by
  refine ⟨rfl, rfl, rfl, rfl, ?_⟩
  decide

/-- C2 (amended): a terminal (COMPLETE or FAILED) row is never selected nor
modified by a claim, and is left untouched by completeJob and by the terminal
branch of failJob whenever the supplied version token differs from the row's
current `attempts_remaining`; the requeue branch of failJob (captured token
> 0), which matches by id alone, is excluded — it can rewrite a terminal row. -/
theorem terminal_immutable_amended (now : Int) (s : Store) (r : Job)
    (hn : (s.map Job.id).Nodup) (hr : r ∈ s)
    (hterm : r.status = COMPLETE ∨ r.status = FAILED) :
    getRow r.id (getNextJob now s).2 = some r
  ∧ (∀ j, (getNextJob now s).1 = some j → j.id ≠ r.id)
  ∧ (∀ job, job.attempts_remaining ≠ r.attempts_remaining →
       getRow r.id (completeJob s job).2 = some r)
  ∧ (∀ job reason, job.attempts_remaining ≤ 0 →
       job.attempts_remaining ≠ r.attempts_remaining →
       getRow r.id (failJob now s job reason).2 = some r) := by
  obtain ⟨ha, hb⟩ := getNextJob_skips hn hr (eligible_terminal_false hterm)
  exact ⟨ha, hb,
    fun job hne => completeJob_skips hn hr (Or.inr hne),
    fun job reason hle hne => failJob_skips_terminal hn hr hle (Or.inr hne)⟩

end JobQ

namespace JobQ

/-! ### Operation sequences and the attempt counter -/

/-- One call against the store, with the store-clock instant at which it runs
(as issued by the worker loop, lines 253-308 of the source). -/
inductive Op where
  | claim (now : Int)
  | fail (job : Job) (reason : String) (now : Int)
  | complete (job : Job)
  | enq (p : JobParams) (now : Int)
deriving Repr

/-- Effect of one call on the table. -/
def step (s : Store) (o : Op) : Store :=
  match o with
  | Op.claim now => (getNextJob now s).2
  | Op.fail job reason now => (failJob now s job reason).2
  | Op.complete job => (completeJob s job).2
  | Op.enq p now => enqueueJob now s p

/-- Effect of a whole call sequence. -/
def run (s : Store) (ops : List Op) : Store :=
  ops.foldl step s

/-- The id of the job a call grants a lease on, if any. -/
def claimedId (s : Store) (o : Op) : Option Int :=
  match o with
  | Op.claim now => ((getNextJob now s).1).map Job.id
  | _ => none

/-- How many leases a call sequence grants on the job with id `i`. -/
def claimsOf (i : Int) : Store → List Op → Nat
  | _, [] => 0
  | s, o :: rest =>
      (if claimedId s o = some i then 1 else 0) + claimsOf i (step s o) rest

theorem getNextJob_snd_none {now : Int} {s : Store}
    (h : selectNext now s = none) : (getNextJob now s).2 = s := by
  unfold getNextJob
  rw [h]

theorem getNextJob_snd_some {now : Int} {s : Store} {j0 : Job}
    (h : selectNext now s = some j0) :
    (getNextJob now s).2
      = s.map (fun j => if j.id == j0.id then claimUpdate now j else j) := by
  unfold getNextJob
  rw [h]

theorem nodup_step {s : Store} (o : Op) (hn : (s.map Job.id).Nodup) :
    ((step s o).map Job.id).Nodup := by
  cases o with
  | claim now =>
      show (((getNextJob now s).2).map Job.id).Nodup
      cases h : selectNext now s with
      | none =>
          rw [getNextJob_snd_none h]
          exact hn
      | some j0 =>
          rw [getNextJob_snd_some h,
              map_ids_of_idpres _ (idpres_guard _ _ (claimUpdate_id now)) s]
          exact hn
  | fail job reason now =>
      show (((failJob now s job reason).2).map Job.id).Nodup
      by_cases hle : job.attempts_remaining ≤ 0
      · rw [failJob_snd_terminal hle,
            map_ids_of_idpres _
              (idpres_guard _ (fun j => { j with status := FAILED, error := some reason })
                (fun j => rfl)) s]
        exact hn
      · rw [@failJob_snd_requeue now s job reason (by omega),
            map_ids_of_idpres _
              (idpres_guard _
                (fun j => { j with status := PENDING, deadline := now + j.time_limit_seconds })
                (fun j => rfl)) s]
        exact hn
  | complete job =>
      show (((completeJob s job).2).map Job.id).Nodup
      rw [completeJob_snd,
          map_ids_of_idpres _
            (idpres_guard _ (fun j => { j with status := COMPLETE }) (fun j => rfl)) s]
      exact hn
  | enq p now => exact nodup_enqueue hn

end JobQ

namespace JobQ

theorem getNextJob_fst_none {now : Int} {s : Store}
    (h : selectNext now s = none) : (getNextJob now s).1 = none := by
  unfold getNextJob
  rw [h]

theorem getNextJob_fst_some {now : Int} {s : Store} {j0 : Job}
    (h : selectNext now s = some j0) :
    (getNextJob now s).1 = some (claimUpdate now j0) := by
  unfold getNextJob
  rw [h]

theorem eligible_pos {now : Int} {j : Job} (h : eligible now j = true) :
    0 < j.attempts_remaining := by
  unfold eligible at h
  rcases (Bool.or_eq_true _ _).mp h with h2 | h2
  · exact of_decide_eq_true ((Bool.and_eq_true _ _).mp h2).2
  · exact of_decide_eq_true ((Bool.and_eq_true _ _).mp h2).2

theorem getRow_map_guard {s : Store} {i : Int} {r : Job}
    (hr : getRow i s = some r) (p : Job → Bool) (u : Job → Job)
    (hu : ∀ j, (u j).id = j.id) :
    getRow i (s.map (fun j => if p j then u j else j))
      = some (if p r then u r else r) := by
  rw [getRow_map_idpres _ (idpres_guard p u hu) i s, hr]
  rfl

/-- One call changes the `attempts_remaining` of the row with id `i` exactly
when the call is a claim that selects that row, and then by exactly one, from
a strictly positive value. -/
theorem getRow_step {s : Store} (o : Op) {i : Int} {r : Job}
    (hn : (s.map Job.id).Nodup) (hr : getRow i s = some r) :
    ∃ r2, getRow i (step s o) = some r2
      ∧ r2.attempts_remaining
          = r.attempts_remaining - (if claimedId s o = some i then 1 else 0)
      ∧ (claimedId s o = some i → 0 < r.attempts_remaining) := by
  obtain ⟨hm, hid⟩ := getRow_mem hr
  cases o with
  | claim now =>
      show ∃ r2, getRow i (getNextJob now s).2 = some r2
        ∧ r2.attempts_remaining = r.attempts_remaining
            - (if ((getNextJob now s).1).map Job.id = some i then 1 else 0)
        ∧ (((getNextJob now s).1).map Job.id = some i → 0 < r.attempts_remaining)
      cases h : selectNext now s with
      | none =>
          rw [getNextJob_snd_none h, getNextJob_fst_none h]
          refine ⟨r, hr, by simp, by intro hc; cases hc⟩
      | some j0 =>
          obtain ⟨hm0, he0, _⟩ := selectNext_some h
          rw [getNextJob_snd_some h, getNextJob_fst_some h]
          by_cases hji : j0.id = i
          · have hjr : j0 = r := id_inj hn hm0 hm (hji.trans hid.symm)
            refine ⟨claimUpdate now r, ?_, ?_, ?_⟩
            · rw [getRow_map_guard hr _ _ (claimUpdate_id now)]
              have : (r.id == j0.id) = true := by simp [hji, hid]
              rw [this]
              simp
            · have : (some (claimUpdate now j0)).map Job.id = some i := by
                simp [claimUpdate_id, hji]
              rw [this]
              simp [claimUpdate]
            · intro _
              rw [← hjr]
              exact eligible_pos he0
          · refine ⟨r, ?_, ?_, ?_⟩
            · rw [getRow_map_guard hr _ _ (claimUpdate_id now)]
              have hb : (r.id == j0.id) = false := by
                simp [hid]
                exact fun h2 => hji h2.symm
              rw [hb]
              rfl
            · simp [claimUpdate_id, hji]
            · intro hc
              simp [claimUpdate_id, hji] at hc
  | fail job reason now =>
      show ∃ r2, getRow i (failJob now s job reason).2 = some r2
        ∧ r2.attempts_remaining = r.attempts_remaining - (if (none : Option Int) = some i then 1 else 0)
        ∧ ((none : Option Int) = some i → 0 < r.attempts_remaining)
      have hz : (if (none : Option Int) = some i then (1 : Int) else 0) = 0 := rfl
      by_cases hle : job.attempts_remaining ≤ 0
      · rw [failJob_snd_terminal hle,
            getRow_map_guard hr _
              (fun j => { j with status := FAILED, error := some reason }) (fun j => rfl)]
        refine ⟨_, rfl, ?_, by intro hc; cases hc⟩
        rw [hz, sub_zero]
        by_cases hp : (r.id == job.id && r.attempts_remaining == job.attempts_remaining) = true
        · rw [if_pos hp]
        · rw [if_neg hp]
      · rw [@failJob_snd_requeue now s job reason (by omega),
            getRow_map_guard hr _
              (fun j => { j with status := PENDING,
                                 deadline := now + j.time_limit_seconds }) (fun j => rfl)]
        refine ⟨_, rfl, ?_, by intro hc; cases hc⟩
        rw [hz, sub_zero]
        by_cases hp : (r.id == job.id) = true
        · rw [if_pos hp]
        · rw [if_neg hp]
  | complete job =>
      show ∃ r2, getRow i (completeJob s job).2 = some r2
        ∧ r2.attempts_remaining = r.attempts_remaining - (if (none : Option Int) = some i then 1 else 0)
        ∧ ((none : Option Int) = some i → 0 < r.attempts_remaining)
      have hz : (if (none : Option Int) = some i then (1 : Int) else 0) = 0 := rfl
      rw [completeJob_snd,
          getRow_map_guard hr _ (fun j => { j with status := COMPLETE }) (fun j => rfl)]
      refine ⟨_, rfl, ?_, by intro hc; cases hc⟩
      rw [hz, sub_zero]
      by_cases hp : (r.id == job.id && r.attempts_remaining == job.attempts_remaining) = true
      · rw [if_pos hp]
      · rw [if_neg hp]
  | enq p now =>
      exact ⟨r, enqueue_keeps hr, by simp [claimedId], by intro hc; cases hc⟩

end JobQ

namespace JobQ

/-- Over any call sequence, the row keeps existing, its `attempts_remaining`
drops by exactly the number of leases granted on it, and never below zero. -/
theorem claimsOf_cons (i : Int) (s : Store) (o : Op) (rest : List Op) :
    claimsOf i s (o :: rest)
      = (if claimedId s o = some i then 1 else 0) + claimsOf i (step s o) rest := rfl

theorem attempts_run {ops : List Op} {s : Store} {i : Int} {r : Job}
    (hn : (s.map Job.id).Nodup) (hr : getRow i s = some r)
    (hpos : 0 ≤ r.attempts_remaining) :
    ∃ r2, getRow i (run s ops) = some r2
      ∧ r2.attempts_remaining = r.attempts_remaining - (claimsOf i s ops : Int)
      ∧ 0 ≤ r2.attempts_remaining := by
  induction ops generalizing s r with
  | nil => exact ⟨r, hr, by simp [run, claimsOf], hpos⟩
  | cons o rest ih =>
      obtain ⟨r1, hr1, ha1, hp1⟩ := getRow_step o hn hr
      have hn1 := nodup_step o hn
      have hpos1 : 0 ≤ r1.attempts_remaining := by
        by_cases hc : claimedId s o = some i
        · have := hp1 hc
          rw [ha1, if_pos hc]
          omega
        · rw [ha1, if_neg hc]
          omega
      obtain ⟨r2, hr2, ha2, hp2⟩ := ih hn1 hr1 hpos1
      refine ⟨r2, ?_, ?_, hp2⟩
      · show getRow i ((o :: rest).foldl step s) = some r2
        rw [List.foldl_cons]
        exact hr2
      · rw [ha2, ha1, claimsOf_cons]
        by_cases hc : claimedId s o = some i
        · rw [if_pos hc, if_pos hc]
          push_cast
          omega
        · rw [if_neg hc, if_neg hc]
          push_cast
          omega

/-- The fresh row inserted by `enqueueJob`. -/
theorem getRow_enqueue (now : Int) (s : Store) (p : JobParams) :
    getRow (freshId s) (enqueueJob now s p) =
      some { id := freshId s, status := PENDING, description := p.description,
             max_attempts := p.max_attempts, attempts_remaining := p.max_attempts,
             time_limit_seconds := p.time_limit_seconds,
             deadline := now + p.time_limit_seconds, error := none } := by
  unfold enqueueJob getRow
  rw [List.find?_append]
  have h0 := getRow_freshId_none s
  unfold getRow at h0
  rw [h0]
  simp

/-- C6 (amended): starting from any table, a job enqueued with
`max_attempts = M ≥ 0` loses exactly one unit of `attempts_remaining` per
granted lease, its counter never becomes negative, and hence at most `M`
leases are ever granted on it across any sequence of calls.  (Reaching a
terminal state after the last lease is NOT guaranteed — see the
counterexample — since that requires a finalize call to succeed.) -/
theorem attempts_decrement_bound (now0 : Int) (s : Store) (p : JobParams) (ops : List Op)
    (hn : (s.map Job.id).Nodup) (hM : 0 ≤ p.max_attempts) :
    ∃ r2, getRow (freshId s) (run (enqueueJob now0 s p) ops) = some r2
      ∧ r2.attempts_remaining
          = p.max_attempts - (claimsOf (freshId s) (enqueueJob now0 s p) ops : Int)
      ∧ 0 ≤ r2.attempts_remaining
      ∧ (claimsOf (freshId s) (enqueueJob now0 s p) ops : Int) ≤ p.max_attempts := by
  have hn0 := @nodup_enqueue now0 s p hn
  obtain ⟨r2, hr2, ha2, hp2⟩ :=
    attempts_run hn0 (getRow_enqueue now0 s p) (by simpa using hM)
  refine ⟨r2, hr2, by simpa using ha2, hp2, ?_⟩
  have := by simpa using ha2
  omega

/-- C6 counterexample (to "after which it reaches a terminal state"): a job
with `max_attempts = 1` claimed once — its single permitted lease — is left
IN_PROGRESS, which is not COMPLETE and not FAILED, and a later claim returns
none leaving the table unchanged.  Without a finalize call the job never
reaches a terminal state. -/
theorem attempts_exhausted_not_terminal_cex :
    (getNextJob 5 (enqueueJob 0 []
        { description := "d", time_limit_seconds := 1, max_attempts := 1 })).1
      = some { id := 1, status := 2, description := "d", max_attempts := 1,
               attempts_remaining := 0, time_limit_seconds := 1, deadline := 6,
               error := none }
  ∧ getNextJob 10 (getNextJob 5 (enqueueJob 0 []
        { description := "d", time_limit_seconds := 1, max_attempts := 1 })).2
      = (none, (getNextJob 5 (enqueueJob 0 []
          { description := "d", time_limit_seconds := 1, max_attempts := 1 })).2)
  ∧ IN_PROGRESS ≠ COMPLETE ∧ IN_PROGRESS ≠ FAILED := by
  refine ⟨rfl, rfl, ?_, ?_⟩ <;> decide

end JobQ

namespace JobQ

/-- Worker-protocol reachability.  The worker loop (source lines 253-308)
finalizes only job values previously handed out by `getNextJob`; `ls`
accumulates those lease snapshots, and failJob/completeJob steps may only be
invoked with a member of `ls`. -/
inductive ProtoReach (s0 : Store) : Store → List Job → Prop where
  | init : ProtoReach s0 s0 []
  | claim (s : Store) (ls : List Job) (now : Int) :
      ProtoReach s0 s ls →
      ProtoReach s0 (getNextJob now s).2 (((getNextJob now s).1).toList ++ ls)
  | fail (s : Store) (ls : List Job) (j : Job) (reason : String) (now : Int) :
      ProtoReach s0 s ls → j ∈ ls →
      ProtoReach s0 (failJob now s j reason).2 ls
  | complete (s : Store) (ls : List Job) (j : Job) :
      ProtoReach s0 s ls → j ∈ ls →
      ProtoReach s0 (completeJob s j).2 ls
  | enq (s : Store) (ls : List Job) (p : JobParams) (now : Int) :
      ProtoReach s0 s ls →
      ProtoReach s0 (enqueueJob now s p) ls

/-- C10: `enqueueJob` validates nothing — with `max_attempts ≤ 0` the insert
still succeeds, creating a PENDING row with
`attempts_remaining = max_attempts ≤ 0`.  That row never satisfies the claim
eligibility predicate, so no claim ever selects or returns it; and since the
worker protocol finalizes only claimed jobs, the row is never modified by any
protocol-reachable call sequence — in particular it never reaches a terminal
state. -/
theorem nonpositive_attempts_job_stuck (now0 : Int) (s : Store) (p : JobParams)
    (hn : (s.map Job.id).Nodup) (hM : p.max_attempts ≤ 0) :
    getRow (freshId s) (enqueueJob now0 s p)
      = some { id := freshId s, status := PENDING, description := p.description,
               max_attempts := p.max_attempts, attempts_remaining := p.max_attempts,
               time_limit_seconds := p.time_limit_seconds,
               deadline := now0 + p.time_limit_seconds, error := none }
  ∧ ∀ s2 ls, ProtoReach (enqueueJob now0 s p) s2 ls →
      getRow (freshId s) s2
        = some { id := freshId s, status := PENDING, description := p.description,
                 max_attempts := p.max_attempts, attempts_remaining := p.max_attempts,
                 time_limit_seconds := p.time_limit_seconds,
                 deadline := now0 + p.time_limit_seconds, error := none }
      ∧ ∀ now j, (getNextJob now s2).1 = some j → j.id ≠ freshId s := by
  refine ⟨getRow_enqueue now0 s p, ?_⟩
  have key : ∀ s2 ls, ProtoReach (enqueueJob now0 s p) s2 ls →
      getRow (freshId s) s2
        = some { id := freshId s, status := PENDING, description := p.description,
                 max_attempts := p.max_attempts, attempts_remaining := p.max_attempts,
                 time_limit_seconds := p.time_limit_seconds,
                 deadline := now0 + p.time_limit_seconds, error := none }
      ∧ ((s2.map Job.id).Nodup)
      ∧ ∀ l ∈ ls, l.id ≠ freshId s := by
    intro s2 ls hreach
    induction hreach with
    | init =>
        exact ⟨getRow_enqueue now0 s p, @nodup_enqueue now0 s p hn, by simp⟩
    | claim s1 ls1 now _ ih =>
        obtain ⟨hrow, hnd, hls⟩ := ih
        have hmem := (getRow_mem hrow).1
        have hel : eligible now
            { id := freshId s, status := PENDING, description := p.description,
              max_attempts := p.max_attempts, attempts_remaining := p.max_attempts,
              time_limit_seconds := p.time_limit_seconds,
              deadline := now0 + p.time_limit_seconds, error := none } = false :=
          eligible_nonpos_false hM
        obtain ⟨ha, hb⟩ := getNextJob_skips hnd hmem hel
        refine ⟨ha, nodup_step (Op.claim now) hnd, ?_⟩
        intro l hl
        rcases List.mem_append.mp hl with hin | hin
        · have hsome : (getNextJob now s1).1 = some l := by
            simpa using hin
          exact hb l hsome
        · exact hls l hin
    | fail s1 ls1 j reason now _ hj ih =>
        obtain ⟨hrow, hnd, hls⟩ := ih
        have hmem := (getRow_mem hrow).1
        have hidne : j.id ≠ freshId s := hls j hj
        refine ⟨?_, nodup_step (Op.fail j reason now) hnd, hls⟩
        by_cases hle : j.attempts_remaining ≤ 0
        · exact failJob_skips_terminal hnd hmem hle (Or.inl hidne)
        · exact failJob_skips_requeue hnd hmem (by omega) hidne
    | complete s1 ls1 j _ hj ih =>
        obtain ⟨hrow, hnd, hls⟩ := ih
        have hmem := (getRow_mem hrow).1
        exact ⟨completeJob_skips hnd hmem (Or.inl (hls j hj)),
               nodup_step (Op.complete j) hnd, hls⟩
    | enq s1 ls1 p1 now _ ih =>
        obtain ⟨hrow, hnd, hls⟩ := ih
        exact ⟨enqueue_keeps hrow, @nodup_enqueue now s1 p1 hnd, hls⟩
  intro s2 ls hreach
  obtain ⟨hrow, hnd, _⟩ := key s2 ls hreach
  have hmem := (getRow_mem hrow).1
  refine ⟨hrow, fun now j hj => ?_⟩
  obtain ⟨_, hb⟩ := getNextJob_skips hnd hmem (eligible_nonpos_false hM)
  exact hb j hj

end JobQ

namespace JobQ

/-- C8 counterexample: a job enqueued with `time_limit_seconds = 0` and
`max_attempts = 2`, claimed at second 100 and claimed again within the same
second, is NOT handed out again: its deadline equals 100 and the eligibility
test `deadline < unixepoch('now')` is strict, so the second claim returns
none and changes nothing. -/
theorem second_claim_same_second_cex :
    (getNextJob 100 (enqueueJob 100 []
        { description := "d", time_limit_seconds := 0, max_attempts := 2 })).1
      = some { id := 1, status := 2, description := "d", max_attempts := 2,
               attempts_remaining := 1, time_limit_seconds := 0, deadline := 100,
               error := none }
  ∧ getNextJob 100 (getNextJob 100 (enqueueJob 100 []
        { description := "d", time_limit_seconds := 0, max_attempts := 2 })).2
      = (none, (getNextJob 100 (enqueueJob 100 []
          { description := "d", time_limit_seconds := 0, max_attempts := 2 })).2) :=
  ⟨rfl, rfl⟩

/-- C8 (amended): with `time_limit_seconds = 0` and `max_attempts ≥ 2`, a job
claimed at time `t` can be claimed again at any strictly later time `t' > t`:
the second claim succeeds, returns the same job (id 1, the only row), and
decrements `attempts_remaining` a second time.  At `t' = t` the lease is not
yet expired (strict `deadline < now`), see the counterexample. -/
theorem second_claim_later_succeeds (t t' a : Int) (d : String)
    (ha : 2 ≤ a) (ht : t < t') :
    (getNextJob t (enqueueJob t []
        { description := d, time_limit_seconds := 0, max_attempts := a })).1
      = some { id := 1, status := IN_PROGRESS, description := d, max_attempts := a,
               attempts_remaining := a - 1, time_limit_seconds := 0, deadline := t,
               error := none }
  ∧ (getNextJob t' (getNextJob t (enqueueJob t []
        { description := d, time_limit_seconds := 0, max_attempts := a })).2).1
      = some { id := 1, status := IN_PROGRESS, description := d, max_attempts := a,
               attempts_remaining := a - 2, time_limit_seconds := 0, deadline := t',
               error := none } := by
  have e1 : decide (0 < a) = true := decide_eq_true (by omega)
  have e2 : decide (0 < a - 1) = true := decide_eq_true (by omega)
  have e3 : decide (t < t') = true := decide_eq_true ht
  have e4 : decide (t + 0 < t') = true := decide_eq_true (by omega)
  have e5 : decide (1 < a) = true := decide_eq_true (by omega)
  constructor
  · simp [enqueueJob, freshId, getNextJob, selectNext, eligible, claimUpdate,
          PENDING, IN_PROGRESS, List.filter, e1]
  · simp [enqueueJob, freshId, getNextJob, selectNext, eligible, claimUpdate,
          PENDING, IN_PROGRESS, List.filter, e1, e2, e3, e4, e5]
    omega

end JobQ

namespace JobQ

/-! ### Client layer: payload objects and the fan-out description asymmetry

`createClient` (source lines 316-352) works with JS objects of type
`T & {max_attempts, time_limit_seconds}`.  An object is modelled as an
association list of fields; `JSON.stringify`/`JSON.parse` — whose format the
spec scopes out, assuming round-trip fidelity — are modelled at the level of
object values, so the stored description IS the serialized object value. -/

/-- A JSON field value (numbers and strings suffice for this model). -/
inductive JsonVal where
  | num : Int → JsonVal
  | str : String → JsonVal
deriving DecidableEq, Repr

/-- A JS object: an association list of named fields. -/
abbrev JsonObj := List (String × JsonVal)

/-- Client-level job parameters: the description column holds the serialized
object value. -/
structure ClientJobParams where
  description : JsonObj
  time_limit_seconds : Int
  max_attempts : Int
deriving DecidableEq, Repr

/-- The rest-spread `const { time_limit_seconds, max_attempts, ...rest }`:
all fields except the two control fields. -/
def restSpread (o : JsonObj) : JsonObj :=
  o.filter (fun kv => !(kv.1 == "max_attempts" || kv.1 == "time_limit_seconds"))

/-- Reading a numeric field of the typed params object. -/
def numField (o : JsonObj) (k : String) : Int :=
  match o.lookup k with
  | some (JsonVal.num n) => n
  | _ => 0

/-- Client-facing `enqueueJob` of `createClient` (source lines 322-326): destructures the two
control fields out of `params` and stringifies only `rest`. -/
def clientEnqueueParams (o : JsonObj) : ClientJobParams :=
  { time_limit_seconds := numField o "time_limit_seconds",
    max_attempts := numField o "max_attempts",
    description := restSpread o }

/-- The fan-out mapping in `startWorkers` (source lines 343-347): destructures
the two control fields of `jt` but stringifies the WHOLE object `jt`. -/
def fanOutParams (o : JsonObj) : ClientJobParams :=
  { max_attempts := numField o "max_attempts",
    time_limit_seconds := numField o "time_limit_seconds",
    description := o }

/-- Worker-side `JSON.parse` of a stored description (source line 338); parse after
stringify is the identity on object values. -/
def workerPayload (description : JsonObj) : JsonObj :=
  description

theorem lookup_restSpread_max (o : JsonObj) :
    (restSpread o).lookup "max_attempts" = none := by
  induction o with
  | nil => rfl
  | cons kv t ih =>
      unfold restSpread at *
      rw [List.filter_cons]
      by_cases h : (kv.1 == "max_attempts" || kv.1 == "time_limit_seconds") = true
      · simp only [h]
        simpa using ih
      · simp only [h, Bool.not_false]
        have h1 : (kv.1 == "max_attempts") = false := by
          cases hx : (kv.1 == "max_attempts")
          · rfl
          · rw [hx] at h
            simp at h
        cases kv with
        | mk k v =>
            simp only [List.lookup]
            simp only [] at h1
            rw [show ("max_attempts" == k) = false by
              cases hk : ("max_attempts" == k)
              · rfl
              · rw [show k = "max_attempts" from by
                    have := eq_of_beq hk
                    exact this.symm] at h1
                simp at h1]
            simpa using ih

theorem lookup_restSpread_tls (o : JsonObj) :
    (restSpread o).lookup "time_limit_seconds" = none := by
  induction o with
  | nil => rfl
  | cons kv t ih =>
      unfold restSpread at *
      rw [List.filter_cons]
      by_cases h : (kv.1 == "max_attempts" || kv.1 == "time_limit_seconds") = true
      · simp only [h]
        simpa using ih
      · simp only [h, Bool.not_false]
        have h1 : (kv.1 == "time_limit_seconds") = false := by
          cases hx : (kv.1 == "time_limit_seconds")
          · rfl
          · rw [hx] at h
            simp at h
        cases kv with
        | mk k v =>
            simp only [List.lookup]
            simp only [] at h1
            rw [show ("time_limit_seconds" == k) = false by
              cases hk : ("time_limit_seconds" == k)
              · rfl
              · rw [show k = "time_limit_seconds" from by
                    have := eq_of_beq hk
                    exact this.symm] at h1
                simp at h1]
            simpa using ih

/-- C9: a fan-out job's stored description is the whole returned object —
control fields `max_attempts` and `time_limit_seconds` included — so the
payload a worker later parses for it still carries both fields; a job
enqueued directly through the client has exactly those two fields stripped
from its description. -/
theorem fanout_description_full_object (o : JsonObj) (m tl : Int)
    (hm : o.lookup "max_attempts" = some (JsonVal.num m))
    (htl : o.lookup "time_limit_seconds" = some (JsonVal.num tl)) :
    (fanOutParams o).description = o
  ∧ (workerPayload (fanOutParams o).description).lookup "max_attempts"
      = some (JsonVal.num m)
  ∧ (workerPayload (fanOutParams o).description).lookup "time_limit_seconds"
      = some (JsonVal.num tl)
  ∧ (clientEnqueueParams o).description.lookup "max_attempts" = none
  ∧ (clientEnqueueParams o).description.lookup "time_limit_seconds" = none
  ∧ (fanOutParams o).max_attempts = m
  ∧ (fanOutParams o).time_limit_seconds = tl
  ∧ (clientEnqueueParams o).max_attempts = m
  ∧ (clientEnqueueParams o).time_limit_seconds = tl :=
  ⟨rfl, hm, htl,
   lookup_restSpread_max o, lookup_restSpread_tls o,
   by simp [fanOutParams, numField, hm],
   by simp [fanOutParams, numField, htl],
   by simp [clientEnqueueParams, numField, hm],
   by simp [clientEnqueueParams, numField, htl]⟩

end JobQ

namespace JobQ

/-! ### Concrete instances -/

/-- A PENDING row with three attempts left. -/
def rowPending : Job := ⟨1, 1, "d", 3, 3, 5, 0, none⟩

/-- A second PENDING row, distinct id and deadline. -/
def rowPending2 : Job := ⟨2, 1, "e", 3, 3, 5, 4, none⟩

/-- An IN_PROGRESS row whose attempts are exhausted. -/
def rowSpent : Job := ⟨1, 2, "d", 2, 0, 5, 10, none⟩

/-- A COMPLETE row. -/
def rowDone : Job := ⟨1, 3, "d", 2, 0, 5, 10, none⟩

/-- A lease snapshot carrying version token 0. -/
def tokenZero : Job := ⟨1, 2, "d", 2, 0, 5, 8, none⟩

/-- A lease snapshot carrying version token 1. -/
def tokenOne : Job := ⟨1, 2, "d", 2, 1, 5, 8, none⟩

theorem stale_token_finalize_witness :
    (([rowSpent].map Job.id).Nodup)
  ∧ getRow tokenOne.id [rowSpent] = some rowSpent
  ∧ rowSpent.attempts_remaining ≠ tokenOne.attempts_remaining
  ∧ completeJob [rowSpent] tokenOne = (false, [rowSpent]) :=
  ⟨by decide, by decide, by decide,
   (stale_token_finalize 20 [rowSpent] tokenOne "r" rowSpent
      (by decide) (by decide) (by decide)).1⟩

theorem terminal_immutable_amended_witness :
    (([rowDone].map Job.id).Nodup)
  ∧ rowDone ∈ [rowDone]
  ∧ (rowDone.status = COMPLETE ∨ rowDone.status = FAILED)
  ∧ getRow rowDone.id (getNextJob 0 [rowDone]).2 = some rowDone :=
  ⟨by decide, by decide, by decide,
   (terminal_immutable_amended 0 [rowDone] rowDone
      (by decide) (by decide) (by decide)).1⟩

theorem failJob_correct_witness :
    (([rowSpent].map Job.id).Nodup)
  ∧ getRow tokenZero.id [rowSpent] = some rowSpent
  ∧ failJob 20 [rowSpent] tokenZero "r"
      = (true, [{ rowSpent with status := FAILED, error := some "r" }]) := by
  refine ⟨by decide, by decide, ?_⟩
  have h := (failJob_correct 20 [rowSpent] tokenZero "r" rowSpent
      (by decide) (by decide)).1 (by decide) (by decide)
  simpa using h

theorem getNextJob_correct_witness :
    (([rowPending].map Job.id).Nodup)
  ∧ (∀ j ∈ [rowPending], eligible 7 j = true →
      ((getNextJob 7 [rowPending]).1).isSome = true) :=
  ⟨by decide, (getNextJob_correct 7 [rowPending] (by decide)).2.1⟩

theorem completeJob_correct_witness :
    (([rowSpent].map Job.id).Nodup)
  ∧ getRow tokenZero.id [rowSpent] = some rowSpent
  ∧ completeJob [rowSpent] tokenZero
      = (true, [{ rowSpent with status := COMPLETE }]) := by
  refine ⟨by decide, by decide, ?_⟩
  have h := (completeJob_correct [rowSpent] tokenZero rowSpent
      (by decide) (by decide)).1 (by decide)
  simpa using h

theorem attempts_decrement_bound_witness :
    ((([] : Store).map Job.id).Nodup)
  ∧ (0 : Int) ≤ (2 : Int)
  ∧ (∃ r2, getRow (freshId [])
        (run (enqueueJob 0 []
          { description := "d", time_limit_seconds := 1, max_attempts := 2 })
          [Op.claim 5]) = some r2
      ∧ r2.attempts_remaining
          = 2 - (claimsOf (freshId [])
              (enqueueJob 0 []
                { description := "d", time_limit_seconds := 1, max_attempts := 2 })
              [Op.claim 5] : Int)
      ∧ 0 ≤ r2.attempts_remaining
      ∧ (claimsOf (freshId [])
            (enqueueJob 0 []
              { description := "d", time_limit_seconds := 1, max_attempts := 2 })
            [Op.claim 5] : Int) ≤ 2) :=
  ⟨by decide, by decide,
   attempts_decrement_bound 0 []
      { description := "d", time_limit_seconds := 1, max_attempts := 2 }
      [Op.claim 5] (by decide) (by decide)⟩

theorem claim_latest_deadline_witness :
    rowPending ∈ [rowPending, rowPending2]
  ∧ rowPending2 ∈ [rowPending, rowPending2]
  ∧ rowPending ≠ rowPending2
  ∧ eligible 7 rowPending = true
  ∧ eligible 7 rowPending2 = true
  ∧ (∃ j0, j0 ∈ [rowPending, rowPending2] ∧ eligible 7 j0 = true
      ∧ (getNextJob 7 [rowPending, rowPending2]).1 = some (claimUpdate 7 j0)
      ∧ ∀ x ∈ [rowPending, rowPending2], eligible 7 x = true →
          x.deadline ≤ j0.deadline) :=
  ⟨by decide, by decide, by decide, by decide, by decide,
   claim_latest_deadline 7 [rowPending, rowPending2] rowPending rowPending2
      (by decide) (by decide) (by decide) (by decide) (by decide)⟩

theorem second_claim_later_succeeds_witness :
    (2 : Int) ≤ 2
  ∧ (0 : Int) < 1
  ∧ (getNextJob 0 (enqueueJob 0 []
        { description := "d", time_limit_seconds := 0, max_attempts := 2 })).1
      = some { id := 1, status := IN_PROGRESS, description := "d", max_attempts := 2,
               attempts_remaining := 1, time_limit_seconds := 0, deadline := 0,
               error := none }
  ∧ (getNextJob 1 (getNextJob 0 (enqueueJob 0 []
        { description := "d", time_limit_seconds := 0, max_attempts := 2 })).2).1
      = some { id := 1, status := IN_PROGRESS, description := "d", max_attempts := 2,
               attempts_remaining := 0, time_limit_seconds := 0, deadline := 1,
               error := none } := by
  obtain ⟨h1, h2⟩ := second_claim_later_succeeds 0 1 2 "d" (by decide) (by decide)
  exact ⟨by decide, by decide, by simpa using h1, by simpa using h2⟩

theorem fanout_description_full_object_witness :
    ([("name", JsonVal.str "Hello"), ("id", JsonVal.num 7),
      ("max_attempts", JsonVal.num 10),
      ("time_limit_seconds", JsonVal.num 1)] : JsonObj).lookup "max_attempts"
      = some (JsonVal.num 10)
  ∧ ([("name", JsonVal.str "Hello"), ("id", JsonVal.num 7),
      ("max_attempts", JsonVal.num 10),
      ("time_limit_seconds", JsonVal.num 1)] : JsonObj).lookup "time_limit_seconds"
      = some (JsonVal.num 1)
  ∧ (clientEnqueueParams
      [("name", JsonVal.str "Hello"), ("id", JsonVal.num 7),
       ("max_attempts", JsonVal.num 10),
       ("time_limit_seconds", JsonVal.num 1)]).description.lookup "max_attempts"
      = none :=
  ⟨by decide, by decide,
   (fanout_description_full_object
      [("name", JsonVal.str "Hello"), ("id", JsonVal.num 7),
       ("max_attempts", JsonVal.num 10), ("time_limit_seconds", JsonVal.num 1)]
      10 1 (by decide) (by decide)).2.2.2.1⟩

theorem nonpositive_attempts_job_stuck_witness :
    ((([] : Store).map Job.id).Nodup)
  ∧ ({ description := "d", time_limit_seconds := 1,
       max_attempts := -2 : JobParams }).max_attempts ≤ 0
  ∧ getRow (freshId []) (enqueueJob 0 []
        { description := "d", time_limit_seconds := 1, max_attempts := -2 })
      = some { id := freshId ([] : Store), status := PENDING, description := "d",
               max_attempts := -2, attempts_remaining := -2,
               time_limit_seconds := 1, deadline := 0 + 1, error := none } :=
  ⟨by decide, by decide,
   (nonpositive_attempts_job_stuck 0 []
      { description := "d", time_limit_seconds := 1, max_attempts := -2 }
      (by decide) (by decide)).1⟩

end JobQ
